import Mathlib

/-!
Verification of the `rust-overlaps` core against its specification.

The definitions below are shallow embeddings of the program's source:

* `src/modes/kucherov.rs` — the Kucherov block-partitioning mode
  (`get_block_lengths`, `filter_func`, `candidate_condition`, …);
  the `f32` error rate is embedded as `ℚ`, the `i32` machine integers as `ℤ`.
* `src/prepare.rs` — `read_and_prepare`, which builds the concatenated corpus.
* `src/structs.rs` — `Solution` with `v_flip`/`un_reverse`, and
  `Maps::find_occurrence_containing`.
* `src/main.rs` — the deterministic-mode sort + dedup output pipeline
  driven by `solution_comparator`.
-/

namespace Kucherov

/-- Source `kucherov.rs` line 52-59: the list `ls` — every length
`l ∈ [thresh, patt_len]` whose integer error budget `⌈err_rate·l⌉` exceeds
`⌈err_rate·(l-1)⌉`, with `patt_len + 1` appended. -/
def ls_list (patt_len : ℤ) (err_rate : ℚ) (thresh : ℤ) : List ℤ :=
  (((List.range (patt_len + 1 - thresh).toNat).map (fun i : ℕ => thresh + (i : ℤ))).filter
    (fun l : ℤ => decide (⌈err_rate * ((l : ℚ) - 1)⌉ < ⌈err_rate * (l : ℚ)⌉))) ++ [patt_len + 1]

/-- `ls[0]` of the source (head of `ls_list`). -/
def ls0 (patt_len : ℤ) (err_rate : ℚ) (thresh : ℤ) : ℤ :=
  (ls_list patt_len err_rate thresh).headI

/-- Source line 60-62: `k = max(1, ⌈err_rate · ls[0]⌉) + s_param - 1`. -/
def k_val (s_param patt_len : ℤ) (err_rate : ℚ) (thresh : ℤ) : ℤ :=
  max 1 ⌈err_rate * (ls0 patt_len err_rate thresh : ℚ)⌉ + s_param - 1

/-- Source line 63-66: `big_l = max(⌈(ls[0]-1)/k⌉, ls[0] - thresh)`. -/
def big_l (s_param patt_len : ℤ) (err_rate : ℚ) (thresh : ℤ) : ℤ :=
  max ⌈((ls0 patt_len err_rate thresh - 1 : ℤ) : ℚ) / ((k_val s_param patt_len err_rate thresh : ℤ) : ℚ)⌉
    (ls0 patt_len err_rate thresh - thresh)

/-- Source line 67: `p = ⌊(ls[0]-1-big_l) / (k-1)⌋`.  (When `k = 1` the source
computes `0.0/0.0 = NaN` and `NaN as i32 = 0`; in that case the numerator is
provably `0`, and rational division by zero also yields `0`.) -/
def p_val (s_param patt_len : ℤ) (err_rate : ℚ) (thresh : ℤ) : ℤ :=
  ⌊((ls0 patt_len err_rate thresh - 1 - big_l s_param patt_len err_rate thresh : ℤ) : ℚ) /
    ((k_val s_param patt_len err_rate thresh - 1 : ℤ) : ℚ)⌋

/-- Source line 68: `first_half_len = p*(k-1) + big_l`. -/
def first_half_len (s_param patt_len : ℤ) (err_rate : ℚ) (thresh : ℤ) : ℤ :=
  p_val s_param patt_len err_rate thresh * (k_val s_param patt_len err_rate thresh - 1) +
    big_l s_param patt_len err_rate thresh

/-- Source line 69: `longer_blocks_in_first_half = ls[0] - 1 - first_half_len`. -/
def longer_blocks (s_param patt_len : ℤ) (err_rate : ℚ) (thresh : ℤ) : ℤ :=
  ls0 patt_len err_rate thresh - 1 - first_half_len s_param patt_len err_rate thresh

/-- Source `KucherovMode::get_block_lengths` (kucherov.rs lines 46-89):
if `patt_len < thresh` return `[patt_len]`; otherwise emit the shorter prior
blocks, the longer prior blocks, the `big_l` block, and the anterior blocks
`ls[i+1] - ls[i]`. -/
def get_block_lengths (s_param patt_len : ℤ) (err_rate : ℚ) (thresh : ℤ) : List ℤ :=
  if patt_len < thresh then [patt_len]
  else
    List.replicate (k_val s_param patt_len err_rate thresh - 1 -
        longer_blocks s_param patt_len err_rate thresh).toNat
        (p_val s_param patt_len err_rate thresh) ++
    List.replicate (longer_blocks s_param patt_len err_rate thresh).toNat
        (p_val s_param patt_len err_rate thresh + 1) ++
    [big_l s_param patt_len err_rate thresh] ++
    List.zipWith (fun a b => a - b) (ls_list patt_len err_rate thresh).tail
      (ls_list patt_len err_rate thresh)

/-- Source `KucherovMode::get_guaranteed_extra_blocks` (kucherov.rs line 31-33). -/
def get_guaranteed_extra_blocks (s_param : ℤ) : ℤ := s_param

/-- Source `KucherovMode::get_fewest_suff_blocks` (kucherov.rs line 35-37). -/
def get_fewest_suff_blocks (s_param : ℤ) : ℤ := s_param

/-- Source `KucherovMode::filter_func` (kucherov.rs line 39-44):
`min(completed_blocks, patt_blocks - s_param)`; `blind_blocks` is unused. -/
def filter_func (s_param completed_blocks patt_blocks blind_blocks : ℤ) : ℤ :=
  min completed_blocks (patt_blocks - s_param)

/-- Source `KucherovMode::candidate_condition` (kucherov.rs line 91-103). -/
def candidate_condition (s_param generous_overlap_len completed_blocks thresh errors : ℤ) : Bool :=
  let c1 := decide (generous_overlap_len ≥ thresh)
  let c2 := decide (completed_blocks > 0)
  let c3 := decide (completed_blocks ≥ s_param - 1) &&
    decide (errors ≤ completed_blocks - s_param + 1)
  c1 && c2 && c3

/-- Modelled from the spec, §4.3(a) steps 1-5 (the list the spec prescribes
for the Kucherov-`S` mode), used to state the refinement claim C1. -/
def spec_block_lengths (s_param patt_len : ℤ) (err_rate : ℚ) (thresh : ℤ) : List ℤ :=
  if patt_len < thresh then [patt_len]
  else
    -- step 2: L = sorted lengths in [thresh, patt_len] where the error budget grows, then patt_len+1
    let bigLlist : List ℤ :=
      (((List.range (patt_len + 1 - thresh).toNat).map (fun i : ℕ => thresh + (i : ℤ))).filter
        (fun l : ℤ => decide (⌈err_rate * ((l : ℚ) - 1)⌉ < ⌈err_rate * (l : ℚ)⌉))) ++ [patt_len + 1]
    let l0 : ℤ := bigLlist.headI
    -- step 3
    let k : ℤ := max 1 ⌈err_rate * (l0 : ℚ)⌉ + s_param - 1
    -- step 4
    let bigL : ℤ := max ⌈((l0 - 1 : ℤ) : ℚ) / ((k : ℤ) : ℚ)⌉ (l0 - thresh)
    let p : ℤ := ⌊((l0 - 1 - bigL : ℤ) : ℚ) / ((k - 1 : ℤ) : ℚ)⌋
    let fhl : ℤ := p * (k - 1) + bigL
    let longer : ℤ := l0 - 1 - fhl
    -- step 5
    List.replicate (k - 1 - longer).toNat p ++ List.replicate longer.toNat (p + 1) ++
      [bigL] ++ List.zipWith (fun a b => a - b) bigLlist.tail bigLlist

end Kucherov

namespace Overlaps

/-- One parsed input record, as delivered by the external record reader to
`read_and_prepare`: a name and a byte sequence (bytes as naturals,
`36 = '$'`, `35 = '#'`, `78 = 'N'`, Rust strings compare byte-wise). -/
structure InRecord where
  name : List ℕ
  seq : List ℕ
deriving DecidableEq

/-- The two `Config` fields consumed by `read_and_prepare` (prepare.rs). -/
structure PrepConfig where
  reversals : Bool
  n_alphabet : Bool
deriving DecidableEq

/-- The mutable accumulation state of `read_and_prepare`'s loop:
`text`, `id2name_vec` and the id-ordered offsets of `id2index_bdmap`. -/
structure PrepState where
  text : List ℕ
  id2name_vec : List (List ℕ)
  id2index : List ℕ
deriving DecidableEq

/-- Source `Maps` (structs.rs lines 154-160); `id2index_bdmap` is embedded as
the id-ordered list of offsets (the bidirectional map's pairs `(id, offset)`
in insertion = id order). -/
structure MapsM where
  text : List ℕ
  id2name_vec : List (List ℕ)
  id2index : List ℕ
  num_ids : ℕ
deriving DecidableEq

/-- prepare.rs lines 24-27: the record's sequence with `'N'` (78) removed
unless the `n_alphabet` option is set. -/
def prep_seq (config : PrepConfig) (s : List ℕ) : List ℕ :=
  if config.n_alphabet then s else s.filter (fun c => c ≠ 78)

/-- prepare.rs lines 21-43, one iteration of the record loop: push `'$'`,
record the offset, append the reversed (filtered) sequence and the name; when
reversals are enabled, do it again with the sequence re-reversed (i.e. the
original orientation) under the next id. -/
def prep_record (config : PrepConfig) (st : PrepState) (r : InRecord) : PrepState :=
  let str_vec := (prep_seq config r.seq).reverse
  let text1 := st.text ++ [36]
  let st1 : PrepState :=
    ⟨text1 ++ str_vec, st.id2name_vec ++ [r.name], st.id2index ++ [text1.length]⟩
  if config.reversals then
    let str_vec2 := str_vec.reverse
    let text2 := st1.text ++ [36]
    ⟨text2 ++ str_vec2, st1.id2name_vec ++ [r.name], st1.id2index ++ [text2.length]⟩
  else st1

/-- Source `read_and_prepare` (prepare.rs lines 11-59): fold the record loop
over the parsed records, then push the final `'#'` (35). -/
def read_and_prepare (config : PrepConfig) (records : List InRecord) : MapsM :=
  let st := records.foldl (prep_record config) ⟨[], [], []⟩
  ⟨st.text ++ [35], st.id2name_vec, st.id2index, st.id2name_vec.length⟩

/-- The `Result` signature of the source `read_and_prepare`: the only failure
path is a parse error raised by the external record reader (`record?`); on a
list of already-parsed records the function always returns `Ok`.  There is no
content-based rejection branch in the source. -/
def read_and_prepare_result (config : PrepConfig) (records : List InRecord) : Option MapsM :=
  some (read_and_prepare config records)

/-- Source `Maps::get_end_index` (structs.rs lines 174-181). -/
def get_end_index (m : MapsM) (id : ℕ) : ℕ :=
  if id = m.num_ids - 1 then m.text.length - 1 else m.id2index.getD (id + 1) 0 - 1

/-- Source `Maps::get_string` (structs.rs lines 164-167):
`&text[id2index[id] .. get_end_index(id)]`. -/
def get_string (m : MapsM) (id : ℕ) : List ℕ :=
  (m.text.take (get_end_index m id)).drop (m.id2index.getD id 0)

/-- Source `Maps::find_occurrence_containing` (structs.rs lines 184-192),
with the iteration over the `(id, offset)` pairs written as a recursion that
carries the current id counter: starting from `best = (0, 1)`, take any pair
whose offset is `≤ index` and greater than the current best offset. -/
def find_occ_aux (index : ℕ) : ℕ → List ℕ → ℕ × ℕ → ℕ × ℕ
  | _, [], best => best
  | i, o :: os, best =>
    find_occ_aux index (i + 1) os (if o ≤ index ∧ best.2 < o then (i, o) else best)

/-- Source `Maps::find_occurrence_containing` (structs.rs lines 184-192). -/
def find_occurrence_containing (m : MapsM) (index : ℕ) : ℕ × ℕ :=
  find_occ_aux index 0 m.id2index (0, 1)

/-- Source `Orientation` (structs.rs lines 15-18). -/
inductive Orientation where
  | Normal : Orientation
  | Reversed : Orientation
deriving DecidableEq

/-- Source `Solution` (structs.rs lines 77-87). -/
structure Solution where
  id_a : ℕ
  id_b : ℕ
  orientation : Orientation
  overhang_left_a : ℤ
  overhang_right_b : ℤ
  overlap_a : ℕ
  overlap_b : ℕ
  errors : ℕ
  cigar : List ℕ
deriving DecidableEq

/-- Source `Solution::v_flip` (structs.rs lines 90-96): negate both overhangs,
swap the ids, swap the overlaps. -/
def v_flip (s : Solution) : Solution :=
  { s with
    overhang_left_a := -s.overhang_left_a,
    overhang_right_b := -s.overhang_right_b,
    id_a := s.id_b,
    id_b := s.id_a,
    overlap_a := s.overlap_b,
    overlap_b := s.overlap_a }

/-- Source `Solution::un_reverse` (structs.rs lines 98-103): swap the two
overhangs, then negate both. -/
def un_reverse (s : Solution) : Solution :=
  { s with
    overhang_left_a := -s.overhang_right_b,
    overhang_right_b := -s.overhang_left_a }

/-- Rank of the derived `Ord` on `Orientation` (`Normal < Reversed`). -/
def orient_rank : Orientation → ℕ
  | Orientation.Normal => 0
  | Orientation.Reversed => 1

/-- Rust's `Ord::cmp` on `usize`/lengths: three-way comparison on `ℕ`. -/
def cmp_nat (a b : ℕ) : Ordering :=
  if a < b then Ordering.lt else if a = b then Ordering.eq else Ordering.gt

/-- Rust's `Ord::cmp` on `i32` overhangs: three-way comparison on `ℤ`. -/
def cmp_int (a b : ℤ) : Ordering :=
  if a < b then Ordering.lt else if a = b then Ordering.eq else Ordering.gt

/-- Rust's `Ord::cmp` on `&str`: byte-wise lexicographic comparison. -/
def cmp_bytes : List ℕ → List ℕ → Ordering
  | [], [] => Ordering.eq
  | [], _ :: _ => Ordering.lt
  | _ :: _, [] => Ordering.gt
  | a :: as', b :: bs' =>
    if a < b then Ordering.lt else if b < a then Ordering.gt else cmp_bytes as' bs'

/-- Rust's derived lexicographic `Ord` on pairs: compare the first components
and break ties with the second (`Ordering::then`). -/
def cmp_prod {α β : Type} (ca : α → α → Ordering) (cb : β → β → Ordering)
    (x y : α × β) : Ordering :=
  (ca x.1 y.1).then (cb x.2 y.2)

/-- The tuple compared by `solution_comparator` (main.rs lines 151-155):
`(name_a, name_b, orientation, overhang_left_a, overhang_right_b, overlap_a,
overlap_b)`, with `get_name_for` embedded as a lookup in `id2name_vec`. -/
def sol_key (names : List (List ℕ)) (s : Solution) :
    List ℕ × List ℕ × ℕ × ℤ × ℤ × ℕ × ℕ :=
  (names.getD s.id_a [], names.getD s.id_b [], orient_rank s.orientation,
    s.overhang_left_a, s.overhang_right_b, s.overlap_a, s.overlap_b)

/-- The comparator on the `sol_key` tuples (Rust's derived tuple `Ord`). -/
def cmp_key : (List ℕ × List ℕ × ℕ × ℤ × ℤ × ℕ × ℕ) →
    (List ℕ × List ℕ × ℕ × ℤ × ℤ × ℕ × ℕ) → Ordering :=
  cmp_prod cmp_bytes (cmp_prod cmp_bytes (cmp_prod cmp_nat (cmp_prod cmp_int
    (cmp_prod cmp_int (cmp_prod cmp_nat cmp_nat)))))

/-- Source `solution_comparator` (main.rs lines 151-155): lexicographic
comparison of the name-based tuples of the two solutions. -/
def solution_comparator (names : List (List ℕ)) (x y : Solution) : Ordering :=
  cmp_key (sol_key names x) (sol_key names y)

/-- Rust `Vec::dedup_by` (inner loop): walk the list keeping the most recently
retained element `prev`; drop the current element `y` when
`same_bucket y prev` holds (Rust passes the pair in reverse slice order). -/
def dedup_by_go {α : Type} (same_bucket : α → α → Bool) : α → List α → List α
  | _, [] => []
  | prev, y :: ys =>
    if same_bucket y prev then dedup_by_go same_bucket prev ys
    else y :: dedup_by_go same_bucket y ys

/-- Rust `Vec::dedup_by`: keep the first element of every run of equal
(according to `same_bucket`) consecutive elements. -/
def dedup_by {α : Type} (same_bucket : α → α → Bool) : List α → List α
  | [] => []
  | x :: xs => x :: dedup_by_go same_bucket x xs

/-- The deterministic (non-greedy) output tail of `solve` (main.rs lines
132-139): stable-sort the accumulated solutions with `solution_comparator`,
then `dedup_by` adjacent elements the comparator finds `Equal`. -/
def deterministic_output (names : List (List ℕ)) (sols : List Solution) : List Solution :=
  dedup_by (fun x y => solution_comparator names x y == Ordering.eq)
    (sols.mergeSort (fun a b => solution_comparator names a b != Ordering.gt))

/-- Modelled from the spec: the §3 Solution identity tuple
`(id_a, id_b, orientation, overhang_left_a, overhang_right_b, overlap_a,
overlap_b)` — ids, not names; errors and cigar excluded. -/
def ident_tuple_eq (x y : Solution) : Bool :=
  decide ((x.id_a, x.id_b, orient_rank x.orientation, x.overhang_left_a,
      x.overhang_right_b, x.overlap_a, x.overlap_b) =
    (y.id_a, y.id_b, orient_rank y.orientation, y.overhang_left_a,
      y.overhang_right_b, y.overlap_a, y.overlap_b))

/-- Modelled from the spec (claim C5's description of the deterministic mode):
sort by the name-based comparator, then remove adjacent elements equal under
the §3 identity tuple. -/
def spec_deterministic_output (names : List (List ℕ)) (sols : List Solution) : List Solution :=
  dedup_by ident_tuple_eq
    (sols.mergeSort (fun a b => solution_comparator names a b != Ordering.gt))

/-- Modelled from the spec §6: upper-case folding of ASCII bytes. -/
def to_upper (b : ℕ) : ℕ := if 97 ≤ b ∧ b ≤ 122 then b - 32 else b

/-- The list of stored strings of the corpus, in id order: for each record the
reversed (filtered) sequence and, when reversals are enabled, also the
original (filtered) sequence under the next id. -/
def stored_strings (config : PrepConfig) (records : List InRecord) : List (List ℕ) :=
  records.flatMap (fun r =>
    let s := prep_seq config r.seq
    if config.reversals then [s.reverse, s] else [s.reverse])

/-- The id → name assignment: each record's name once, or twice when
reversals are enabled. -/
def name_list (config : PrepConfig) (records : List InRecord) : List (List ℕ) :=
  records.flatMap (fun r => if config.reversals then [r.name, r.name] else [r.name])

/-- `'$'`-separated concatenation: each stored string preceded by `'$'`. -/
def sep_join (ss : List (List ℕ)) : List ℕ := ss.flatMap (fun s => 36 :: s)

/-- A three-way comparator that behaves like a total order on `α`:
`eq` coincides with equality, `gt` is the mirror of `lt`, and `lt` is
transitive.  All component comparators of `solution_comparator` satisfy it. -/
structure IsLawfulCmp {α : Type} (c : α → α → Ordering) : Prop where
  eq_iff : ∀ a b, c a b = Ordering.eq ↔ a = b
  gt_iff : ∀ a b, (c a b = Ordering.gt ↔ c b a = Ordering.lt)
  lt_trans' : ∀ a b d, c a b = Ordering.lt → c b d = Ordering.lt → c a d = Ordering.lt

/-- The offsets at which the stored strings start inside the text, when the
text built so far has length `acc`. -/
def offsets_of : ℕ → List (List ℕ) → List ℕ
  | _, [] => []
  | acc, s :: ss => (acc + 1) :: offsets_of (acc + 1 + s.length) ss

end Overlaps

namespace Kucherov

lemma ls_list_ne_nil (patt_len : ℤ) (err_rate : ℚ) (thresh : ℤ) :
    ls_list patt_len err_rate thresh ≠ [] := by
  simp [ls_list]

lemma mem_ls_list_bounds {patt_len : ℤ} {err_rate : ℚ} {thresh a : ℤ}
    (hmt : thresh ≤ patt_len) (ha : a ∈ ls_list patt_len err_rate thresh) :
    thresh ≤ a ∧ a ≤ patt_len + 1 := by
  rcases List.mem_append.mp ha with h | h
  · obtain ⟨i, hi, rfl⟩ := List.mem_map.mp (List.mem_of_mem_filter h)
    have hi' := List.mem_range.mp hi
    have h1 : (i : ℤ) < (patt_len + 1 - thresh).toNat := by exact_mod_cast hi'
    have h2 := Int.toNat_of_nonneg (show (0:ℤ) ≤ patt_len + 1 - thresh by omega)
    omega
  · simp only [List.mem_singleton] at h
    omega

lemma ls0_bounds {patt_len : ℤ} (err_rate : ℚ) {thresh : ℤ} (hmt : thresh ≤ patt_len) :
    thresh ≤ ls0 patt_len err_rate thresh ∧ ls0 patt_len err_rate thresh ≤ patt_len + 1 := by
  have hne := ls_list_ne_nil patt_len err_rate thresh
  have hmem : ls0 patt_len err_rate thresh ∈ ls_list patt_len err_rate thresh := by
    unfold ls0
    cases h : ls_list patt_len err_rate thresh with
    | nil => exact absurd h hne
    | cons a l => simp [h]
  exact mem_ls_list_bounds hmt hmem

lemma k_val_pos {s_param : ℤ} (patt_len : ℤ) (err_rate : ℚ) (thresh : ℤ)
    (hs : 1 ≤ s_param) : 1 ≤ k_val s_param patt_len err_rate thresh := by
  have := le_max_left 1 ⌈err_rate * (ls0 patt_len err_rate thresh : ℚ)⌉
  unfold k_val
  omega

lemma big_l_le_ls0_sub_one {s_param patt_len : ℤ} {err_rate : ℚ} {thresh : ℤ}
    (ht : 1 ≤ thresh) (hmt : thresh ≤ patt_len) (hs : 1 ≤ s_param) :
    big_l s_param patt_len err_rate thresh ≤ ls0 patt_len err_rate thresh - 1 := by
  have hL0 := (ls0_bounds err_rate hmt).1
  have hk := k_val_pos patt_len err_rate thresh hs
  apply max_le
  · rw [Int.ceil_le]
    apply div_le_self
    · have : (0:ℤ) ≤ ls0 patt_len err_rate thresh - 1 := by omega
      exact_mod_cast this
    · exact_mod_cast hk
  · omega

lemma ls0_sub_thresh_le_big_l (s_param patt_len : ℤ) (err_rate : ℚ) (thresh : ℤ) :
    ls0 patt_len err_rate thresh - thresh ≤ big_l s_param patt_len err_rate thresh :=
  le_max_right _ _

lemma longer_blocks_bounds {s_param patt_len : ℤ} {err_rate : ℚ} {thresh : ℤ}
    (ht : 1 ≤ thresh) (hmt : thresh ≤ patt_len) (hs : 1 ≤ s_param) :
    0 ≤ longer_blocks s_param patt_len err_rate thresh ∧
    longer_blocks s_param patt_len err_rate thresh ≤ k_val s_param patt_len err_rate thresh - 1 ∧
    0 ≤ p_val s_param patt_len err_rate thresh := by
  have hB_le := @big_l_le_ls0_sub_one s_param patt_len err_rate thresh ht hmt hs
  have hk := @k_val_pos s_param patt_len err_rate thresh hs
  have hlonger : longer_blocks s_param patt_len err_rate thresh =
      ls0 patt_len err_rate thresh - 1 -
        (p_val s_param patt_len err_rate thresh * (k_val s_param patt_len err_rate thresh - 1) +
          big_l s_param patt_len err_rate thresh) := rfl
  rcases eq_or_lt_of_le hk with hk1 | hk2
  · -- k = 1: the big_l block is forced to be ls0 - 1, the division is 0/0 = 0
    have hceil : ⌈((ls0 patt_len err_rate thresh - 1 : ℤ) : ℚ) /
        ((k_val s_param patt_len err_rate thresh : ℤ) : ℚ)⌉ =
        ls0 patt_len err_rate thresh - 1 := by
      rw [← hk1]
      norm_num
    have hBge : ls0 patt_len err_rate thresh - 1 ≤ big_l s_param patt_len err_rate thresh := by
      have hmax := le_max_left
        ⌈((ls0 patt_len err_rate thresh - 1 : ℤ) : ℚ) /
          ((k_val s_param patt_len err_rate thresh : ℤ) : ℚ)⌉
        (ls0 patt_len err_rate thresh - thresh)
      calc ls0 patt_len err_rate thresh - 1
          = ⌈((ls0 patt_len err_rate thresh - 1 : ℤ) : ℚ) /
              ((k_val s_param patt_len err_rate thresh : ℤ) : ℚ)⌉ := hceil.symm
        _ ≤ big_l s_param patt_len err_rate thresh := hmax
    have hBeq : big_l s_param patt_len err_rate thresh = ls0 patt_len err_rate thresh - 1 := by
      omega
    have hp0 : p_val s_param patt_len err_rate thresh = 0 := by
      unfold p_val
      have hnum : ((ls0 patt_len err_rate thresh - 1 -
          big_l s_param patt_len err_rate thresh : ℤ) : ℚ) = 0 := by
        rw [hBeq]; push_cast; ring
      rw [hnum, zero_div, Int.floor_zero]
    rw [hlonger, hp0]
    omega
  · -- k ≥ 2: standard floor-division bounds
    have hkm1 : (0:ℚ) < ((k_val s_param patt_len err_rate thresh - 1 : ℤ) : ℚ) := by
      exact_mod_cast (by omega : (0:ℤ) < k_val s_param patt_len err_rate thresh - 1)
    have hx0 : 0 ≤ ls0 patt_len err_rate thresh - 1 - big_l s_param patt_len err_rate thresh := by
      omega
    have hple : p_val s_param patt_len err_rate thresh *
        (k_val s_param patt_len err_rate thresh - 1) ≤
        ls0 patt_len err_rate thresh - 1 - big_l s_param patt_len err_rate thresh := by
      have h1 : ((p_val s_param patt_len err_rate thresh : ℤ) : ℚ) ≤
          ((ls0 patt_len err_rate thresh - 1 - big_l s_param patt_len err_rate thresh : ℤ) : ℚ) /
          ((k_val s_param patt_len err_rate thresh - 1 : ℤ) : ℚ) := Int.floor_le _
      rw [le_div_iff₀ hkm1] at h1
      exact_mod_cast h1
    have hplt : ls0 patt_len err_rate thresh - 1 - big_l s_param patt_len err_rate thresh <
        (p_val s_param patt_len err_rate thresh + 1) *
        (k_val s_param patt_len err_rate thresh - 1) := by
      have h2 : ((ls0 patt_len err_rate thresh - 1 - big_l s_param patt_len err_rate thresh : ℤ) : ℚ) /
          ((k_val s_param patt_len err_rate thresh - 1 : ℤ) : ℚ) <
          ((p_val s_param patt_len err_rate thresh : ℤ) : ℚ) + 1 := Int.lt_floor_add_one _
      rw [div_lt_iff₀ hkm1] at h2
      exact_mod_cast h2
    have hp0 : 0 ≤ p_val s_param patt_len err_rate thresh := by
      apply Int.le_floor.mpr
      push_cast
      apply div_nonneg
      · exact_mod_cast hx0
      · push_cast at hkm1
        linarith
    refine ⟨?_, ?_, hp0⟩
    · rw [hlonger]; linarith
    · rw [hlonger]; linarith

lemma take_first_half {p B L0 k longer : ℤ} (C : List ℤ)
    (hlonger : longer = L0 - 1 - (p * (k - 1) + B))
    (h0 : 0 ≤ longer) (h1 : longer ≤ k - 1) (hk : 1 ≤ k) :
    ((List.replicate (k - 1 - longer).toNat p ++ List.replicate longer.toNat (p + 1) ++
      [B] ++ C).take k.toNat).sum = L0 - 1 := by
  have ha : ((k - 1 - longer).toNat : ℤ) = k - 1 - longer := Int.toNat_of_nonneg (by omega)
  have hb : ((longer.toNat : ℕ) : ℤ) = longer := Int.toNat_of_nonneg h0
  have hklen : k.toNat = ((List.replicate (k - 1 - longer).toNat p ++
      List.replicate longer.toNat (p + 1)).length) + 1 := by
    simp only [List.length_append, List.length_replicate]
    omega
  have hassoc : List.replicate (k - 1 - longer).toNat p ++ List.replicate longer.toNat (p + 1) ++
      [B] ++ C = (List.replicate (k - 1 - longer).toNat p ++
      List.replicate longer.toNat (p + 1)) ++ ([B] ++ C) := by
    simp [List.append_assoc]
  rw [hassoc, hklen, List.take_append]
  have htake1 : ([B] ++ C).take 1 = [B] := by
    simp
  rw [htake1]
  simp only [List.sum_append, List.sum_replicate, smul_eq_mul, List.sum_cons, List.sum_nil]
  have : ((k - 1 - longer).toNat : ℤ) * p + (longer.toNat : ℤ) * (p + 1) + (B + 0) = L0 - 1 := by
    rw [ha, hb, hlonger]
    ring
  exact_mod_cast this

lemma getD_big_l_block {p B k longer : ℤ} (C : List ℤ)
    (h0 : 0 ≤ longer) (h1 : longer ≤ k - 1) (hk : 1 ≤ k) :
    (List.replicate (k - 1 - longer).toNat p ++ List.replicate longer.toNat (p + 1) ++
      [B] ++ C).getD (k - 1).toNat 0 = B := by
  have hassoc : List.replicate (k - 1 - longer).toNat p ++ List.replicate longer.toNat (p + 1) ++
      [B] ++ C = (List.replicate (k - 1 - longer).toNat p ++
      List.replicate longer.toNat (p + 1)) ++ ([B] ++ C) := by
    simp [List.append_assoc]
  have hlen : (List.replicate (k - 1 - longer).toNat p ++
      List.replicate longer.toNat (p + 1)).length = (k - 1).toNat := by
    simp only [List.length_append, List.length_replicate]
    omega
  rw [hassoc, List.getD_append_right _ _ _ _ (le_of_eq hlen), hlen]
  simp

lemma zipWith_sub_tail_sum : ∀ (tl : List ℤ) (x : ℤ),
    (List.zipWith (fun a b => a - b) tl (x :: tl)).sum = (x :: tl).getLastD 0 - x := by
  intro tl
  induction tl with
  | nil => intro x; simp
  | cons y tl' ih =>
    intro x
    have h1 : List.zipWith (fun a b : ℤ => a - b) (y :: tl') (x :: y :: tl') =
        (y - x) :: List.zipWith (fun a b : ℤ => a - b) tl' (y :: tl') := rfl
    rw [h1, List.sum_cons, ih y]
    have h2 : (x :: y :: tl').getLastD 0 = (y :: tl').getLastD 0 := by
      cases tl' <;> simp [List.getLastD_cons]
    rw [h2]
    ring

lemma ls_list_getLastD (patt_len : ℤ) (err_rate : ℚ) (thresh : ℤ) :
    (ls_list patt_len err_rate thresh).getLastD 0 = patt_len + 1 := by
  unfold ls_list
  exact List.getLastD_concat _ _ _

lemma anterior_sum (patt_len : ℤ) (err_rate : ℚ) (thresh : ℤ) :
    (List.zipWith (fun a b => a - b) (ls_list patt_len err_rate thresh).tail
      (ls_list patt_len err_rate thresh)).sum =
    patt_len + 1 - ls0 patt_len err_rate thresh := by
  have hne := ls_list_ne_nil patt_len err_rate thresh
  have hlast := ls_list_getLastD patt_len err_rate thresh
  cases h : ls_list patt_len err_rate thresh with
  | nil => exact absurd h hne
  | cons a tl =>
    rw [h] at hlast
    have hl0 : ls0 patt_len err_rate thresh = a := by
      unfold ls0; rw [h]; rfl
    rw [hl0, List.tail_cons, zipWith_sub_tail_sum tl a, hlast]

/-- C1: for every pattern length `m`, error rate `ε ∈ (0,1)`, threshold `τ ≥ 1`
and Kucherov parameter `S ≥ 1`, `get_block_lengths` returns exactly the list
prescribed by spec §4.3(a): `[m]` when `m < τ`, and otherwise the
`k−1−longer` blocks of length `p`, the `longer` blocks of length `p+1`, the
`bigL` block and the anterior differences of `L`. -/
theorem kucherov_block_lengths_match_spec (s_param patt_len : ℤ) (err_rate : ℚ) (thresh : ℤ)
    (he0 : 0 < err_rate) (he1 : err_rate < 1) (ht : 1 ≤ thresh) (hs : 1 ≤ s_param) :
    get_block_lengths s_param patt_len err_rate thresh =
      spec_block_lengths s_param patt_len err_rate thresh := rfl

/-- Witness for C1 at `S = 2`, `m = 30`, `ε = 1/10`, `τ = 5`. -/
theorem kucherov_block_lengths_match_spec_witness :
    (0:ℚ) < 1/10 ∧ (1/10:ℚ) < 1 ∧ (1:ℤ) ≤ 5 ∧ (1:ℤ) ≤ 2 ∧
    get_block_lengths 2 30 (1/10) 5 = spec_block_lengths 2 30 (1/10) 5 :=
  ⟨by norm_num, by norm_num, by norm_num, by norm_num,
    kucherov_block_lengths_match_spec 2 30 (1/10) 5 (by norm_num) (by norm_num)
      (by norm_num) (by norm_num)⟩

/-- C2: for every `(m, ε, τ, S)` with `m ≥ τ ≥ 1`, `ε ∈ (0,1)`, `S ≥ 1`,
the first `k` blocks of `get_block_lengths` sum exactly to `L[0] − 1` and the
`k`-th block has length at least `L[0] − τ` — the two trailing assertions in
the source never fire. -/
theorem kucherov_postconditions_hold (s_param patt_len : ℤ) (err_rate : ℚ) (thresh : ℤ)
    (he0 : 0 < err_rate) (he1 : err_rate < 1) (ht : 1 ≤ thresh)
    (hmt : thresh ≤ patt_len) (hs : 1 ≤ s_param) :
    ((get_block_lengths s_param patt_len err_rate thresh).take
        (k_val s_param patt_len err_rate thresh).toNat).sum =
      ls0 patt_len err_rate thresh - 1 ∧
    ls0 patt_len err_rate thresh - thresh ≤
      (get_block_lengths s_param patt_len err_rate thresh).getD
        (k_val s_param patt_len err_rate thresh - 1).toNat 0 := by
  obtain ⟨h0, h1, hp⟩ := @longer_blocks_bounds s_param patt_len err_rate thresh ht hmt hs
  have hk := @k_val_pos s_param patt_len err_rate thresh hs
  rw [get_block_lengths, if_neg (not_lt.mpr hmt)]
  constructor
  · exact take_first_half _ rfl h0 h1 hk
  · rw [getD_big_l_block _ h0 h1 hk]
    exact ls0_sub_thresh_le_big_l s_param patt_len err_rate thresh

/-- Witness for C2 at `S = 1`, `m = 10`, `ε = 1/5`, `τ = 3`. -/
theorem kucherov_postconditions_hold_witness :
    (0:ℚ) < 1/5 ∧ (1/5:ℚ) < 1 ∧ (1:ℤ) ≤ 3 ∧ (3:ℤ) ≤ 10 ∧ (1:ℤ) ≤ 1 ∧
    (((get_block_lengths 1 10 (1/5) 3).take (k_val 1 10 (1/5) 3).toNat).sum =
        ls0 10 (1/5) 3 - 1 ∧
      ls0 10 (1/5) 3 - 3 ≤
        (get_block_lengths 1 10 (1/5) 3).getD (k_val 1 10 (1/5) 3 - 1).toNat 0) :=
  ⟨by norm_num, by norm_num, by norm_num, by norm_num, by norm_num,
    kucherov_postconditions_hold 1 10 (1/5) 3 (by norm_num) (by norm_num)
      (by norm_num) (by norm_num) (by norm_num)⟩

/-- C3: for every `S ≥ 1` and all integer arguments, the Kucherov admissibility
operations compute exactly the §4.3(b) definitions:
`get_guaranteed_extra_blocks = S`, `get_fewest_suff_blocks = S`,
`filter_func = min(completed, patt_blocks − S)` independently of the blind
argument, and `candidate_condition` holds iff
`generous_overlap_len ≥ τ ∧ completed > 0 ∧ completed ≥ S−1 ∧ errors ≤ completed − S + 1`. -/
theorem kucherov_admissibility_ops (s_param completed_blocks patt_blocks blind_a blind_b
      generous_overlap_len thresh errors : ℤ) (hs : 1 ≤ s_param) :
    get_guaranteed_extra_blocks s_param = s_param ∧
    get_fewest_suff_blocks s_param = s_param ∧
    filter_func s_param completed_blocks patt_blocks blind_a =
      min completed_blocks (patt_blocks - s_param) ∧
    filter_func s_param completed_blocks patt_blocks blind_a =
      filter_func s_param completed_blocks patt_blocks blind_b ∧
    (candidate_condition s_param generous_overlap_len completed_blocks thresh errors = true ↔
      (generous_overlap_len ≥ thresh ∧ completed_blocks > 0 ∧
        completed_blocks ≥ s_param - 1 ∧ errors ≤ completed_blocks - s_param + 1)) := by
  refine ⟨rfl, rfl, rfl, rfl, ?_⟩
  simp only [candidate_condition, Bool.and_eq_true, decide_eq_true_eq]
  tauto

/-- Witness for C3 at `S = 2` and concrete integer arguments. -/
theorem kucherov_admissibility_ops_witness :
    (1:ℤ) ≤ 2 ∧
    (get_guaranteed_extra_blocks 2 = 2 ∧
     get_fewest_suff_blocks 2 = 2 ∧
     filter_func 2 3 7 5 = min 3 (7 - 2) ∧
     filter_func 2 3 7 5 = filter_func 2 3 7 9 ∧
     (candidate_condition 2 6 3 5 1 = true ↔
       ((6:ℤ) ≥ 5 ∧ (3:ℤ) > 0 ∧ (3:ℤ) ≥ 2 - 1 ∧ (1:ℤ) ≤ 3 - 2 + 1))) :=
  ⟨by norm_num, kucherov_admissibility_ops 2 3 7 5 9 6 5 1 (by norm_num)⟩

/-- Sum of the whole block list: the first-half blocks and the `big_l` block
contribute `L0 - 1`, and the anterior blocks contribute the rest. -/
lemma sum_blocks_decomp {p B L0 k longer : ℤ} (C : List ℤ)
    (hlonger : longer = L0 - 1 - (p * (k - 1) + B))
    (h0 : 0 ≤ longer) (h1 : longer ≤ k - 1) (hk : 1 ≤ k) :
    (List.replicate (k - 1 - longer).toNat p ++ List.replicate longer.toNat (p + 1) ++
      [B] ++ C).sum = L0 - 1 + C.sum := by
  have ha : ((k - 1 - longer).toNat : ℤ) = k - 1 - longer :=
    Int.toNat_of_nonneg (by omega)
  have hb : ((longer.toNat : ℕ) : ℤ) = longer := Int.toNat_of_nonneg h0
  simp only [List.sum_append, List.sum_replicate, nsmul_eq_mul, List.sum_cons, List.sum_nil]
  rw [ha, hb, hlonger]
  ring

/-- C10: for every `m ≥ 1`, `ε ∈ (0,1)`, `τ ≥ 1`, `S ≥ 1`, the block lengths
returned by `get_block_lengths` sum to exactly the pattern length `m`, in both
the `m < τ` and the `m ≥ τ` case. -/
theorem kucherov_block_lengths_sum (s_param patt_len : ℤ) (err_rate : ℚ) (thresh : ℤ)
    (he0 : 0 < err_rate) (he1 : err_rate < 1) (hm : 1 ≤ patt_len)
    (ht : 1 ≤ thresh) (hs : 1 ≤ s_param) :
    (get_block_lengths s_param patt_len err_rate thresh).sum = patt_len := by
  by_cases hlt : patt_len < thresh
  · rw [get_block_lengths, if_pos hlt]
    simp
  · have hmt : thresh ≤ patt_len := not_lt.mp hlt
    obtain ⟨h0, h1, hp⟩ := @longer_blocks_bounds s_param patt_len err_rate thresh ht hmt hs
    have hk := @k_val_pos s_param patt_len err_rate thresh hs
    rw [get_block_lengths, if_neg hlt,
      @sum_blocks_decomp (p_val s_param patt_len err_rate thresh)
        (big_l s_param patt_len err_rate thresh)
        (ls0 patt_len err_rate thresh)
        (k_val s_param patt_len err_rate thresh)
        (longer_blocks s_param patt_len err_rate thresh) _ rfl h0 h1 hk,
      anterior_sum patt_len err_rate thresh]
    ring

/-- Witness for C10 at `S = 2`, `m = 30`, `ε = 1/10`, `τ = 5`. -/
theorem kucherov_block_lengths_sum_witness :
    (0:ℚ) < 1/10 ∧ (1/10:ℚ) < 1 ∧ (1:ℤ) ≤ 30 ∧ (1:ℤ) ≤ 5 ∧ (1:ℤ) ≤ 2 ∧
    (get_block_lengths 2 30 (1/10) 5).sum = 30 :=
  ⟨by norm_num, by norm_num, by norm_num, by norm_num, by norm_num,
    kucherov_block_lengths_sum 2 30 (1/10) 5 (by norm_num) (by norm_num)
      (by norm_num) (by norm_num) (by norm_num)⟩

end Kucherov

namespace Overlaps

/-- C9: `v_flip` and `un_reverse` are involutions: applying either twice to a
Solution yields a Solution identical to the original (all fields, including
errors and cigar). -/
theorem v_flip_un_reverse_involutions (s : Solution) :
    v_flip (v_flip s) = s ∧ un_reverse (un_reverse s) = s := by
  cases s
  constructor <;> simp [v_flip, un_reverse]

lemma offsets_of_chain : ∀ (ss : List (List ℕ)) (acc : ℕ),
    List.Chain' (· < ·) (offsets_of acc ss)
  | [], _ => by simp [offsets_of]
  | [_], _ => by simp [offsets_of]
  | s1 :: s2 :: ss, acc => by
    have ih := offsets_of_chain (s2 :: ss) (acc + 1 + s1.length)
    rw [show offsets_of acc (s1 :: s2 :: ss) =
      (acc + 1) :: offsets_of (acc + 1 + s1.length) (s2 :: ss) from rfl]
    rw [show offsets_of (acc + 1 + s1.length) (s2 :: ss) =
      (acc + 1 + s1.length + 1) :: offsets_of (acc + 1 + s1.length + 1 + s2.length) ss
      from rfl] at ih ⊢
    rw [List.chain'_cons]
    exact ⟨by omega, ih⟩

lemma offsets_of_length : ∀ (ss : List (List ℕ)) (acc : ℕ),
    (offsets_of acc ss).length = ss.length
  | [], _ => rfl
  | _ :: ss, acc => by
    rw [show offsets_of acc (_ :: ss) = (acc + 1) :: offsets_of (acc + 1 + _) ss from rfl]
    simp [offsets_of_length ss]

lemma stored_strings_length_eq_name_list_length (config : PrepConfig)
    (records : List InRecord) :
    (stored_strings config records).length = (name_list config records).length := by
  induction records with
  | nil => rfl
  | cons r rs ih =>
    simp only [stored_strings, name_list, List.flatMap_cons, List.length_append] at ih ⊢
    by_cases hrev : config.reversals = true <;> simp [hrev] at ih ⊢ <;> omega

lemma prep_record_of_reversals {config : PrepConfig} (hrev : config.reversals = true)
    (st : PrepState) (r : InRecord) :
    prep_record config st r =
      ⟨st.text ++ [36] ++ (prep_seq config r.seq).reverse ++ [36] ++ prep_seq config r.seq,
       st.id2name_vec ++ [r.name, r.name],
       st.id2index ++ [st.text.length + 1,
         st.text.length + 1 + (prep_seq config r.seq).reverse.length + 1]⟩ := by
  simp [prep_record, hrev, List.append_assoc, List.length_append]
  omega

lemma prep_record_of_no_reversals {config : PrepConfig} (hrev : config.reversals = false)
    (st : PrepState) (r : InRecord) :
    prep_record config st r =
      ⟨st.text ++ [36] ++ (prep_seq config r.seq).reverse,
       st.id2name_vec ++ [r.name],
       st.id2index ++ [st.text.length + 1]⟩ := by
  simp [prep_record, hrev, List.append_assoc, List.length_append]

lemma prep_foldl (config : PrepConfig) :
    ∀ (records : List InRecord) (st : PrepState),
    records.foldl (prep_record config) st =
      ⟨st.text ++ sep_join (stored_strings config records),
       st.id2name_vec ++ name_list config records,
       st.id2index ++ offsets_of st.text.length (stored_strings config records)⟩
  | [], st => by
    simp [stored_strings, name_list, sep_join, offsets_of]
  | r :: rs, st => by
    rw [List.foldl_cons, prep_foldl config rs (prep_record config st r)]
    by_cases hrev : config.reversals = true
    · rw [prep_record_of_reversals hrev st r]
      have hss : stored_strings config (r :: rs) =
          (prep_seq config r.seq).reverse :: prep_seq config r.seq ::
            stored_strings config rs := by
        simp [stored_strings, hrev]
      simp only [PrepState.mk.injEq, hss]
      refine ⟨?_, ?_, ?_⟩
      · simp [sep_join, List.append_assoc]
      · simp [name_list, hrev, List.append_assoc]
      · rw [offsets_of, offsets_of]
        simp only [List.length_append, List.length_reverse, List.length_cons,
          List.length_nil, List.append_assoc, List.cons_append, List.singleton_append,
          List.nil_append]
        ring_nf
    · have hrev' : config.reversals = false := by
        cases h : config.reversals
        · rfl
        · exact absurd h hrev
      rw [prep_record_of_no_reversals hrev' st r]
      have hss : stored_strings config (r :: rs) =
          (prep_seq config r.seq).reverse :: stored_strings config rs := by
        simp [stored_strings, hrev']
      simp only [PrepState.mk.injEq, hss]
      refine ⟨?_, ?_, ?_⟩
      · simp [sep_join, List.append_assoc]
      · simp [name_list, hrev', List.append_assoc]
      · rw [offsets_of]
        simp only [List.length_append, List.length_reverse, List.length_cons,
          List.length_nil, List.append_assoc, List.cons_append, List.singleton_append,
          List.nil_append]
        ring_nf

lemma read_and_prepare_text (config : PrepConfig) (records : List InRecord) :
    (read_and_prepare config records).text =
      sep_join (stored_strings config records) ++ [35] := by
  unfold read_and_prepare
  rw [prep_foldl config records ⟨[], [], []⟩]
  simp

lemma read_and_prepare_names (config : PrepConfig) (records : List InRecord) :
    (read_and_prepare config records).id2name_vec = name_list config records := by
  unfold read_and_prepare
  rw [prep_foldl config records ⟨[], [], []⟩]
  simp

lemma read_and_prepare_offsets (config : PrepConfig) (records : List InRecord) :
    (read_and_prepare config records).id2index =
      offsets_of 0 (stored_strings config records) := by
  unfold read_and_prepare
  rw [prep_foldl config records ⟨[], [], []⟩]
  simp

lemma stored_strings_eq (config : PrepConfig) (records : List InRecord) :
    stored_strings config records = records.flatMap (fun r =>
      if config.reversals then [(prep_seq config r.seq).reverse, prep_seq config r.seq]
      else [(prep_seq config r.seq).reverse]) := rfl

/-- Counterexample to C4 as stated: with `--n-alphabet` unset (the default),
the record `(name "r", seq "ANC")` has its `'N'` (78) stripped before
reversal, so the stored string for id 0 is `"CA"` — not `"CNA"`, the
byte-wise reversal of the record's sequence. -/
theorem stored_string_not_reversal_when_n_stripped :
    get_string (read_and_prepare ⟨false, false⟩ [⟨[114], [65, 78, 67]⟩]) 0 = [67, 65] ∧
    ([65, 78, 67] : List ℕ).reverse = [67, 78, 65] ∧
    get_string (read_and_prepare ⟨false, false⟩ [⟨[114], [65, 78, 67]⟩]) 0 ≠
      ([65, 78, 67] : List ℕ).reverse := by
  decide

/-- C4 (amended): for every input record list, the corpus text is a `'$'`
before each stored string in id order and one final `'#'`; the stored string
for the first id of a record is the byte-wise reversal of its sequence *as
delivered after the configured `N` policy* (`'N'` bytes are stripped first
unless `n_alphabet` is set; no base complementation); with reversals enabled
the next id holds that delivered sequence unreversed and both ids map to the
record's name; and the id-to-offset map is total on the ids with strictly
increasing offsets. -/
theorem read_and_prepare_corpus_layout (config : PrepConfig)
    (records : List InRecord) :
    (read_and_prepare config records).text =
      (records.flatMap (fun r => if config.reversals then
        (36 :: (prep_seq config r.seq).reverse) ++ (36 :: prep_seq config r.seq)
        else 36 :: (prep_seq config r.seq).reverse)) ++ [35] ∧
    (read_and_prepare config records).id2name_vec =
      records.flatMap (fun r => if config.reversals then [r.name, r.name] else [r.name]) ∧
    List.Chain' (· < ·) (read_and_prepare config records).id2index ∧
    (read_and_prepare config records).id2index.length =
      (read_and_prepare config records).num_ids := by
  refine ⟨?_, ?_, ?_, ?_⟩
  · rw [read_and_prepare_text, stored_strings_eq config records,
      sep_join, List.flatMap_assoc]
    have hfun : ∀ r : InRecord,
        ((if config.reversals = true then
            [(prep_seq config r.seq).reverse, prep_seq config r.seq]
          else [(prep_seq config r.seq).reverse]).flatMap fun str => 36 :: str) =
        (if config.reversals = true then
          (36 :: (prep_seq config r.seq).reverse) ++ (36 :: prep_seq config r.seq)
          else 36 :: (prep_seq config r.seq).reverse) := by
      intro r
      by_cases hrev : config.reversals = true <;> simp [hrev]
    simp only [hfun]
  · rw [read_and_prepare_names, name_list]
  · rw [read_and_prepare_offsets]
    exact offsets_of_chain _ _
  · have hnum : (read_and_prepare config records).num_ids =
        (read_and_prepare config records).id2name_vec.length := rfl
    rw [hnum, read_and_prepare_names, read_and_prepare_offsets, offsets_of_length,
      stored_strings_length_eq_name_list_length]

/-- Counterexample to C6: on the record `(name "r", seq "A$B")` the loader
returns successfully (`Ok`) and the stored string for id 0 contains the
sentinel byte `'$'` (36) — the source has no content-based rejection. -/
theorem loader_accepts_sentinel_bytes :
    (read_and_prepare_result ⟨false, true⟩ [⟨[114], [65, 36, 66]⟩]).isSome = true ∧
    get_string (read_and_prepare ⟨false, true⟩ [⟨[114], [65, 36, 66]⟩]) 0 = [66, 36, 65] ∧
    (36:ℕ) ∈ get_string (read_and_prepare ⟨false, true⟩ [⟨[114], [65, 36, 66]⟩]) 0 := by
  decide

/-- C6 amended: `read_and_prepare` performs no sentinel validation — for every
parsed record list it returns `Ok`, storing every (reversed, possibly
N-stripped) sequence verbatim between `'$'` separators, sentinels included. -/
theorem loader_never_rejects (config : PrepConfig) (records : List InRecord) :
    read_and_prepare_result config records = some (read_and_prepare config records) ∧
    (read_and_prepare config records).text =
      sep_join (stored_strings config records) ++ [35] :=
  ⟨rfl, read_and_prepare_text config records⟩

/-- Counterexample to C7: the record `(name "r", seq "ac")` is stored as the
byte-wise reversal `"ca"` of its lower-case sequence, not as the reversal of
its upper-case folding `"AC"` — no case folding happens in the loader. -/
theorem stored_bytes_not_upper_folded :
    get_string (read_and_prepare ⟨false, true⟩ [⟨[114], [97, 99]⟩]) 0 = [99, 97] ∧
    (([97, 99] : List ℕ).map to_upper).reverse = [67, 65] ∧
    get_string (read_and_prepare ⟨false, true⟩ [⟨[114], [97, 99]⟩]) 0 ≠
      (([97, 99] : List ℕ).map to_upper).reverse := by
  decide

/-- C7 amended: sequence bytes reach the corpus unchanged (no case folding):
every byte of the built text other than the sentinels `'$'` and `'#'` is a
byte of some input sequence, exactly as delivered. -/
theorem text_bytes_from_input (config : PrepConfig) (records : List InRecord) (b : ℕ)
    (hb : b ∈ (read_and_prepare config records).text) :
    b = 36 ∨ b = 35 ∨ ∃ r ∈ records, b ∈ r.seq := by
  rw [read_and_prepare_text] at hb
  rcases List.mem_append.mp hb with h | h
  · rw [sep_join] at h
    obtain ⟨str, hs, hbs⟩ := List.mem_flatMap.mp h
    rcases List.mem_cons.mp hbs with rfl | hbs'
    · exact Or.inl rfl
    · right; right
      rw [stored_strings] at hs
      obtain ⟨r, hr, hsr⟩ := List.mem_flatMap.mp hs
      refine ⟨r, hr, ?_⟩
      have hps : b ∈ prep_seq config r.seq → b ∈ r.seq := by
        unfold prep_seq
        split
        · exact id
        · exact fun hmem => (List.mem_filter.mp hmem).1
      by_cases hrev : config.reversals = true
      · rw [if_pos hrev] at hsr
        rcases List.mem_cons.mp hsr with rfl | hsr'
        · exact hps (List.mem_reverse.mp hbs')
        · rcases List.mem_cons.mp hsr' with rfl | hsr''
          · exact hps hbs'
          · exact absurd hsr'' (List.not_mem_nil _)
      · rw [if_neg hrev] at hsr
        rcases List.mem_cons.mp hsr with rfl | hsr'
        · exact hps (List.mem_reverse.mp hbs')
        · exact absurd hsr' (List.not_mem_nil _)
  · right; left
    simpa using h

/-- Witness for C7-amended at byte 97 of the record `(name "r", seq "a")`. -/
theorem text_bytes_from_input_witness :
    (97:ℕ) ∈ (read_and_prepare ⟨false, true⟩ [⟨[114], [97]⟩]).text ∧
    ((97:ℕ) = 36 ∨ (97:ℕ) = 35 ∨ ∃ r ∈ [InRecord.mk [114] [97]], (97:ℕ) ∈ r.seq) :=
  ⟨by decide, text_bytes_from_input ⟨false, true⟩ [⟨[114], [97]⟩] 97 (by decide)⟩

lemma find_occ_aux_spec (index : ℕ) : ∀ (os : List ℕ) (i : ℕ) (b : ℕ × ℕ),
    (find_occ_aux index i os b = b ∨
      ∃ j, j < os.length ∧ find_occ_aux index i os b = (i + j, os.getD j 0) ∧
        os.getD j 0 ≤ index ∧ b.2 < os.getD j 0) ∧
    (∀ j, j < os.length → os.getD j 0 ≤ index → b.2 < os.getD j 0 →
      os.getD j 0 ≤ (find_occ_aux index i os b).2) ∧
    b.2 ≤ (find_occ_aux index i os b).2
  | [], i, b => by
    refine ⟨Or.inl rfl, ?_, le_refl _⟩
    intro j hj
    exact absurd hj (Nat.not_lt_zero j)
  | o :: os, i, b => by
    have heq : find_occ_aux index i (o :: os) b =
        find_occ_aux index (i + 1) os (if o ≤ index ∧ b.2 < o then (i, o) else b) := rfl
    by_cases hcond : o ≤ index ∧ b.2 < o
    · obtain ⟨ih1, ih2, ih3⟩ := find_occ_aux_spec index os (i + 1) (i, o)
      rw [if_pos hcond] at heq
      have hb2 : ((i, o) : ℕ × ℕ).2 = o := rfl
      refine ⟨?_, ?_, ?_⟩
      · rcases ih1 with h | ⟨j, hj, hfind, hle, hlt⟩
        · right
          refine ⟨0, Nat.succ_pos _, ?_, hcond.1, hcond.2⟩
          rw [heq, h]
          simp
        · right
          refine ⟨j + 1, by simpa using hj, ?_, by simpa using hle, ?_⟩
          · rw [heq, hfind, List.getD_cons_succ]
            congr 1
            omega
          · rw [List.getD_cons_succ]
            rw [hb2] at hlt
            exact lt_trans hcond.2 hlt
      · intro j hj hle hlt
        rw [heq]
        cases j with
        | zero =>
          rw [List.getD_cons_zero] at hle hlt ⊢
          calc o = ((i, o) : ℕ × ℕ).2 := rfl
            _ ≤ _ := ih3
        | succ j' =>
          rw [List.getD_cons_succ] at hle hlt ⊢
          rcases lt_or_le o (os.getD j' 0) with hoj | hoj
          · exact ih2 j' (by simpa using hj) hle (by rw [hb2]; exact hoj)
          · calc os.getD j' 0 ≤ o := hoj
              _ = ((i, o) : ℕ × ℕ).2 := rfl
              _ ≤ _ := ih3
      · rw [heq]
        calc b.2 ≤ o := le_of_lt hcond.2
          _ = ((i, o) : ℕ × ℕ).2 := rfl
          _ ≤ _ := ih3
    · obtain ⟨ih1, ih2, ih3⟩ := find_occ_aux_spec index os (i + 1) b
      rw [if_neg hcond] at heq
      refine ⟨?_, ?_, ?_⟩
      · rcases ih1 with h | ⟨j, hj, hfind, hle, hlt⟩
        · left
          rw [heq, h]
        · right
          refine ⟨j + 1, by simpa using hj, ?_, by simpa using hle, by simpa using hlt⟩
          rw [heq, hfind, List.getD_cons_succ]
          congr 1
          omega
      · intro j hj hle hlt
        rw [heq]
        cases j with
        | zero =>
          rw [List.getD_cons_zero] at hle hlt
          exact absurd ⟨hle, hlt⟩ hcond
        | succ j' =>
          rw [List.getD_cons_succ] at hle hlt ⊢
          exact ih2 j' (by simpa using hj) hle hlt
      · rw [heq]
        exact ih3

/-- C8: for every `Maps` value satisfying the §3 bijection invariants
(id-ordered strictly increasing offsets starting at 1, one offset per id) and
every text index inside the stored interval `[offset(id), end(id))` of some
id, `find_occurrence_containing` returns exactly that id with its start
offset. -/
theorem find_occurrence_containing_correct (m : MapsM) (id index : ℕ)
    (hmono : List.Chain' (· < ·) m.id2index)
    (hlen : m.id2index.length = m.num_ids)
    (hfirst : m.id2index.getD 0 0 = 1)
    (hid : id < m.num_ids)
    (hlo : m.id2index.getD id 0 ≤ index)
    (hhi : index < get_end_index m id) :
    find_occurrence_containing m index = (id, m.id2index.getD id 0) := by
  have hpair : List.Pairwise (· < ·) m.id2index := List.chain'_iff_pairwise.mp hmono
  have hgetlt : ∀ j j', j < j' → j' < m.id2index.length →
      m.id2index.getD j 0 < m.id2index.getD j' 0 := by
    intro j j' hjj hj'
    have hj : j < m.id2index.length := lt_trans hjj hj'
    rw [List.getD_eq_getElem _ _ hj, List.getD_eq_getElem _ _ hj']
    exact List.pairwise_iff_getElem.mp hpair j j' hj hj' hjj
  have hjgt : ∀ j, id < j → j < m.id2index.length → index < m.id2index.getD j 0 := by
    intro j hjid hj
    by_cases hlast : id = m.num_ids - 1
    · omega
    · have hend : get_end_index m id = m.id2index.getD (id + 1) 0 - 1 := by
        unfold get_end_index
        rw [if_neg hlast]
      rw [hend] at hhi
      have hstep : m.id2index.getD id 0 < m.id2index.getD (id + 1) 0 :=
        hgetlt id (id + 1) (Nat.lt_succ_self id) (by omega)
      have hmonole : m.id2index.getD (id + 1) 0 ≤ m.id2index.getD j 0 := by
        rcases eq_or_lt_of_le (show id + 1 ≤ j by omega) with h | h
        · rw [h]
        · exact le_of_lt (hgetlt (id + 1) j h hj)
      omega
  obtain ⟨h1, h2, h3⟩ := find_occ_aux_spec index m.id2index 0 ((0, 1) : ℕ × ℕ)
  have hfocc : find_occurrence_containing m index =
      find_occ_aux index 0 m.id2index ((0, 1) : ℕ × ℕ) := rfl
  by_cases hid0 : id = 0
  · subst hid0
    rcases h1 with h | ⟨j, hj, hfind, hle, hlt⟩
    · rw [hfocc, h, hfirst]
    · exfalso
      have hj0 : 0 < j := by
        rcases Nat.eq_zero_or_pos j with rfl | h
        · rw [hfirst] at hlt
          exact absurd hlt (lt_irrefl 1)
        · exact h
      exact absurd hle (not_le.mpr (hjgt j hj0 hj))
  · have hidpos : 0 < id := Nat.pos_of_ne_zero hid0
    have hb2lt : (1 : ℕ) < m.id2index.getD id 0 := by
      have := hgetlt 0 id hidpos (by omega)
      rw [hfirst] at this
      exact this
    have hub := h2 id (by omega) hlo hb2lt
    rcases h1 with h | ⟨j, hj, hfind, hle, hlt⟩
    · exfalso
      have hub' : m.id2index.getD id 0 ≤ 1 := by rw [h] at hub; exact hub
      omega
    · rw [hfocc, hfind]
      have hub' : m.id2index.getD id 0 ≤ m.id2index.getD j 0 := by
        rw [hfind] at hub; exact hub
      have hjle : j ≤ id := by
        by_contra hgt
        exact absurd hle (not_le.mpr (hjgt j (by omega) hj))
      have hjeq : j = id := by
        rcases eq_or_lt_of_le hjle with heq' | hlt'
        · exact heq'
        · exfalso
          have hgl := hgetlt j id hlt' (by omega)
          omega
      rw [hjeq]
      simp

/-- Witness for C8: offsets `[1, 4, 8]`, id 1, text index 5. -/
theorem find_occurrence_containing_correct_witness :
    List.Chain' (· < ·) ([1, 4, 8] : List ℕ) ∧
    find_occurrence_containing ⟨[], [], [1, 4, 8], 3⟩ 5 =
      (1, ([1, 4, 8] : List ℕ).getD 1 0) :=
  ⟨by norm_num [List.chain'_cons], find_occurrence_containing_correct
    ⟨[], [], [1, 4, 8], 3⟩ 1 5 (by norm_num [List.chain'_cons]) (by decide) (by decide)
    (by decide) (by decide) (by decide)⟩


lemma cmp_nat_lt_iff (a b : ℕ) : cmp_nat a b = Ordering.lt ↔ a < b := by
  unfold cmp_nat
  split_ifs with h1 h2 <;> simp_all <;> omega

lemma cmp_nat_eq_iff (a b : ℕ) : cmp_nat a b = Ordering.eq ↔ a = b := by
  unfold cmp_nat
  split_ifs with h1 h2 <;> simp_all <;> omega

lemma cmp_nat_gt_iff' (a b : ℕ) : cmp_nat a b = Ordering.gt ↔ b < a := by
  unfold cmp_nat
  split_ifs with h1 h2 <;> simp_all <;> omega

lemma cmp_nat_lawful : IsLawfulCmp cmp_nat := by
  refine ⟨cmp_nat_eq_iff, ?_, ?_⟩
  · intro a b
    rw [cmp_nat_gt_iff', cmp_nat_lt_iff]
  · intro a b d h1 h2
    rw [cmp_nat_lt_iff] at h1 h2 ⊢
    omega

lemma cmp_int_lt_iff (a b : ℤ) : cmp_int a b = Ordering.lt ↔ a < b := by
  unfold cmp_int
  split_ifs with h1 h2 <;> simp_all <;> omega

lemma cmp_int_eq_iff (a b : ℤ) : cmp_int a b = Ordering.eq ↔ a = b := by
  unfold cmp_int
  split_ifs with h1 h2 <;> simp_all <;> omega

lemma cmp_int_gt_iff' (a b : ℤ) : cmp_int a b = Ordering.gt ↔ b < a := by
  unfold cmp_int
  split_ifs with h1 h2 <;> simp_all <;> omega

lemma cmp_int_lawful : IsLawfulCmp cmp_int := by
  refine ⟨cmp_int_eq_iff, ?_, ?_⟩
  · intro a b
    rw [cmp_int_gt_iff', cmp_int_lt_iff]
  · intro a b d h1 h2
    rw [cmp_int_lt_iff] at h1 h2 ⊢
    omega

lemma cmp_bytes_eq_iff : ∀ (a b : List ℕ), cmp_bytes a b = Ordering.eq ↔ a = b
  | [], [] => by simp [cmp_bytes]
  | [], _ :: _ => by simp [cmp_bytes]
  | _ :: _, [] => by simp [cmp_bytes]
  | x :: xs, y :: ys => by
    rw [show cmp_bytes (x :: xs) (y :: ys) = (if x < y then Ordering.lt
      else if y < x then Ordering.gt else cmp_bytes xs ys) from rfl]
    split_ifs with h1 h2
    · simp only [List.cons.injEq]
      constructor
      · intro hcontra
        exact absurd hcontra (by simp)
      · rintro ⟨rfl, -⟩
        omega
    · simp only [List.cons.injEq]
      constructor
      · intro hcontra
        exact absurd hcontra (by simp)
      · rintro ⟨rfl, -⟩
        omega
    · have hxy : x = y := by omega
      subst hxy
      simp [cmp_bytes_eq_iff xs ys]

lemma cmp_bytes_gt_iff : ∀ (a b : List ℕ),
    cmp_bytes a b = Ordering.gt ↔ cmp_bytes b a = Ordering.lt
  | [], [] => by simp [cmp_bytes]
  | [], _ :: _ => by simp [cmp_bytes]
  | _ :: _, [] => by simp [cmp_bytes]
  | x :: xs, y :: ys => by
    rw [show cmp_bytes (x :: xs) (y :: ys) = (if x < y then Ordering.lt
      else if y < x then Ordering.gt else cmp_bytes xs ys) from rfl]
    rw [show cmp_bytes (y :: ys) (x :: xs) = (if y < x then Ordering.lt
      else if x < y then Ordering.gt else cmp_bytes ys xs) from rfl]
    rcases lt_trichotomy x y with h | h | h
    · rw [if_pos h, if_neg (by omega), if_pos h]
      simp
    · subst h
      rw [if_neg (by omega), if_neg (by omega), if_neg (by omega), if_neg (by omega)]
      exact cmp_bytes_gt_iff xs ys
    · rw [if_neg (by omega), if_pos h, if_pos h]
      simp

lemma cmp_bytes_lt_trans : ∀ (a b d : List ℕ), cmp_bytes a b = Ordering.lt →
    cmp_bytes b d = Ordering.lt → cmp_bytes a d = Ordering.lt
  | [], [], _ => by
    intro h1 _
    exact absurd h1 (by simp [cmp_bytes])
  | [], _ :: _, [] => by
    intro _ h2
    exact absurd h2 (by simp [cmp_bytes])
  | [], _ :: _, _ :: _ => by
    intro _ _
    simp [cmp_bytes]
  | _ :: _, [], _ => by
    intro h1 _
    exact absurd h1 (by simp [cmp_bytes])
  | _ :: _, _ :: _, [] => by
    intro _ h2
    exact absurd h2 (by simp [cmp_bytes])
  | x :: xs, y :: ys, z :: zs => by
    intro h1 h2
    rw [show cmp_bytes (x :: xs) (y :: ys) = (if x < y then Ordering.lt
      else if y < x then Ordering.gt else cmp_bytes xs ys) from rfl] at h1
    rw [show cmp_bytes (y :: ys) (z :: zs) = (if y < z then Ordering.lt
      else if z < y then Ordering.gt else cmp_bytes ys zs) from rfl] at h2
    rw [show cmp_bytes (x :: xs) (z :: zs) = (if x < z then Ordering.lt
      else if z < x then Ordering.gt else cmp_bytes xs zs) from rfl]
    split_ifs at h1 h2 ⊢ <;>
      first
        | rfl
        | exact absurd h1 (fun h => Ordering.noConfusion h)
        | exact absurd h2 (fun h => Ordering.noConfusion h)
        | exact cmp_bytes_lt_trans xs ys zs h1 h2
        | (exfalso; omega)

lemma cmp_bytes_lawful : IsLawfulCmp cmp_bytes :=
  ⟨cmp_bytes_eq_iff, cmp_bytes_gt_iff, cmp_bytes_lt_trans⟩

lemma cmp_prod_lawful {α β : Type} {ca : α → α → Ordering} {cb : β → β → Ordering}
    (ha : IsLawfulCmp ca) (hb : IsLawfulCmp cb) : IsLawfulCmp (cmp_prod ca cb) := by
  have hrefl : ∀ a : α, ca a a = Ordering.eq := fun a => (ha.eq_iff a a).mpr rfl
  refine ⟨?_, ?_, ?_⟩
  · intro x y
    unfold cmp_prod
    cases hab : ca x.1 y.1
    · simp only [Ordering.then]
      constructor
      · exact fun h => absurd h (fun h => Ordering.noConfusion h)
      · intro h
        rw [h, hrefl] at hab
        exact Ordering.noConfusion hab
    · have h1 : x.1 = y.1 := (ha.eq_iff _ _).mp hab
      simp only [Ordering.then]
      rw [hb.eq_iff]
      constructor
      · intro h2
        exact Prod.ext h1 h2
      · intro h
        rw [h]
    · simp only [Ordering.then]
      constructor
      · exact fun h => absurd h (fun h => Ordering.noConfusion h)
      · intro h
        rw [h, hrefl] at hab
        exact Ordering.noConfusion hab
  · intro x y
    unfold cmp_prod
    cases hab : ca x.1 y.1
    · have hba : ca y.1 x.1 = Ordering.gt := (ha.gt_iff _ _).mpr hab
      rw [hba]
      simp [Ordering.then]
    · have h1 : x.1 = y.1 := (ha.eq_iff _ _).mp hab
      have hba : ca y.1 x.1 = Ordering.eq := (ha.eq_iff _ _).mpr h1.symm
      rw [hba]
      simp only [Ordering.then]
      exact hb.gt_iff _ _
    · have hba : ca y.1 x.1 = Ordering.lt := (ha.gt_iff _ _).mp hab
      rw [hba]
      simp [Ordering.then]
  · intro x y z h1 h2
    unfold cmp_prod at h1 h2 ⊢
    cases hxy : ca x.1 y.1 <;> rw [hxy] at h1 <;> simp only [Ordering.then] at h1 <;>
      cases hyz : ca y.1 z.1 <;> rw [hyz] at h2 <;> simp only [Ordering.then] at h2
    · rw [ha.lt_trans' _ _ _ hxy hyz]
      simp [Ordering.then]
    · have : y.1 = z.1 := (ha.eq_iff _ _).mp hyz
      rw [← this, hxy]
      simp [Ordering.then]
    · exact absurd h2 (fun h => Ordering.noConfusion h)
    · have : x.1 = y.1 := (ha.eq_iff _ _).mp hxy
      rw [this, hyz]
      simp [Ordering.then]
    · have hx : x.1 = y.1 := (ha.eq_iff _ _).mp hxy
      have hy : y.1 = z.1 := (ha.eq_iff _ _).mp hyz
      rw [hx, hy, hrefl]
      simp only [Ordering.then]
      exact hb.lt_trans' _ _ _ h1 h2
    · exact absurd h2 (fun h => Ordering.noConfusion h)
    · exact absurd h1 (fun h => Ordering.noConfusion h)
    · exact absurd h1 (fun h => Ordering.noConfusion h)
    · exact absurd h1 (fun h => Ordering.noConfusion h)

lemma cmp_key_lawful : IsLawfulCmp cmp_key :=
  cmp_prod_lawful cmp_bytes_lawful (cmp_prod_lawful cmp_bytes_lawful
    (cmp_prod_lawful cmp_nat_lawful (cmp_prod_lawful cmp_int_lawful
      (cmp_prod_lawful cmp_int_lawful (cmp_prod_lawful cmp_nat_lawful cmp_nat_lawful)))))

lemma IsLawfulCmp.le_trans'' {α : Type} {c : α → α → Ordering} (h : IsLawfulCmp c)
    {a b d : α} (h1 : c a b ≠ Ordering.gt) (h2 : c b d ≠ Ordering.gt) :
    c a d ≠ Ordering.gt := by
  cases hab : c a b
  · cases hbd : c b d
    · rw [h.lt_trans' _ _ _ hab hbd]
      exact fun hcontra => Ordering.noConfusion hcontra
    · have : b = d := (h.eq_iff _ _).mp hbd
      rw [← this, hab]
      exact fun hcontra => Ordering.noConfusion hcontra
    · exact absurd hbd h2
  · have : a = b := (h.eq_iff _ _).mp hab
    rw [this]
    exact h2
  · exact absurd hab h1

lemma dedup_go_chain {α K : Type} (ck : K → K → Ordering) (hl : IsLawfulCmp ck)
    (f : α → K) : ∀ (ys : List α) (prev : α),
    List.Chain' (fun a b => ck (f a) (f b) ≠ Ordering.gt) (prev :: ys) →
    List.Chain' (fun a b => ck (f a) (f b) = Ordering.lt)
      (prev :: dedup_by_go (fun x y => ck (f x) (f y) == Ordering.eq) prev ys)
  | [], prev => fun _ => by simp [dedup_by_go]
  | y :: ys, prev => fun hch => by
    rw [List.chain'_cons] at hch
    obtain ⟨hpy, hch'⟩ := hch
    by_cases hd : ck (f y) (f prev) = Ordering.eq
    · have hcond : ((fun x y => ck (f x) (f y) == Ordering.eq) y prev) = true := by
        show (ck (f y) (f prev) == Ordering.eq) = true
        rw [hd]
        rfl
      have hstep : dedup_by_go (fun x y => ck (f x) (f y) == Ordering.eq) prev (y :: ys) =
          dedup_by_go (fun x y => ck (f x) (f y) == Ordering.eq) prev ys := by
        rw [show dedup_by_go (fun x y => ck (f x) (f y) == Ordering.eq) prev (y :: ys) =
          if (fun x y => ck (f x) (f y) == Ordering.eq) y prev then
            dedup_by_go (fun x y => ck (f x) (f y) == Ordering.eq) prev ys
          else y :: dedup_by_go (fun x y => ck (f x) (f y) == Ordering.eq) y ys from rfl,
          if_pos hcond]
      rw [hstep]
      apply dedup_go_chain ck hl f ys prev
      have hfy : f y = f prev := (hl.eq_iff _ _).mp hd
      cases ys with
      | nil => simp
      | cons z ys' =>
        rw [List.chain'_cons] at hch' ⊢
        exact ⟨by rw [← hfy]; exact hch'.1, hch'.2⟩
    · have hcond : ¬(((fun x y => ck (f x) (f y) == Ordering.eq) y prev) = true) := by
        show ¬((ck (f y) (f prev) == Ordering.eq) = true)
        intro hc
        apply hd
        cases h : ck (f y) (f prev)
        · rw [h] at hc
          exact absurd hc (by decide)
        · rfl
        · rw [h] at hc
          exact absurd hc (by decide)
      have hstep : dedup_by_go (fun x y => ck (f x) (f y) == Ordering.eq) prev (y :: ys) =
          y :: dedup_by_go (fun x y => ck (f x) (f y) == Ordering.eq) y ys := by
        rw [show dedup_by_go (fun x y => ck (f x) (f y) == Ordering.eq) prev (y :: ys) =
          if (fun x y => ck (f x) (f y) == Ordering.eq) y prev then
            dedup_by_go (fun x y => ck (f x) (f y) == Ordering.eq) prev ys
          else y :: dedup_by_go (fun x y => ck (f x) (f y) == Ordering.eq) y ys from rfl,
          if_neg hcond]
      rw [hstep, List.chain'_cons]
      constructor
      · have hne : ck (f prev) (f y) ≠ Ordering.eq := by
          intro hcontra
          exact hd ((hl.eq_iff _ _).mpr ((hl.eq_iff _ _).mp hcontra).symm)
        cases hco : ck (f prev) (f y)
        · rfl
        · exact absurd hco hne
        · exact absurd hco hpy
      · exact dedup_go_chain ck hl f ys y hch'

/-- The boolean sort predicate of the pipeline agrees with the propositional
form used in the sortedness proof. -/
lemma bne_gt_iff (o : Ordering) : (o != Ordering.gt) = true ↔ o ≠ Ordering.gt := by
  cases o <;> decide

/-- C5 (amended): in deterministic mode the program stable-sorts the
accumulated solutions by `solution_comparator` and removes adjacent elements
the comparator finds `Equal` (the name tuple, not the id-based identity
tuple), so the written output is strictly sorted by the name tuple with no
adjacent duplicates. -/
theorem deterministic_output_strictly_sorted (names : List (List ℕ)) (sols : List Solution) :
    List.Chain' (fun x y => solution_comparator names x y = Ordering.lt)
      (deterministic_output names sols) := by
  have hlaw := cmp_key_lawful
  have htrans : ∀ a b c : Solution,
      (solution_comparator names a b != Ordering.gt) = true →
      (solution_comparator names b c != Ordering.gt) = true →
      (solution_comparator names a c != Ordering.gt) = true := by
    intro a b c h1 h2
    rw [bne_gt_iff] at h1 h2 ⊢
    exact hlaw.le_trans'' h1 h2
  have htotal : ∀ a b : Solution,
      ((solution_comparator names a b != Ordering.gt) ||
        (solution_comparator names b a != Ordering.gt)) = true := by
    intro a b
    rw [Bool.or_eq_true, bne_gt_iff, bne_gt_iff]
    by_cases hab : solution_comparator names a b = Ordering.gt
    · right
      intro hba
      have hlt : cmp_key (sol_key names b) (sol_key names a) = Ordering.lt :=
        (hlaw.gt_iff _ _).mp hab
      have hba' : cmp_key (sol_key names b) (sol_key names a) = Ordering.gt := hba
      rw [hba'] at hlt
      exact Ordering.noConfusion hlt
    · left
      exact hab
  have hsorted := List.sorted_mergeSort htrans htotal sols
  have hchain : List.Chain' (fun a b => cmp_key (sol_key names a) (sol_key names b) ≠
      Ordering.gt) (sols.mergeSort (fun a b => solution_comparator names a b != Ordering.gt)) := by
    apply List.Pairwise.chain'
    apply hsorted.imp
    intro a b hab
    exact (bne_gt_iff _).mp hab
  unfold deterministic_output
  cases hms : sols.mergeSort (fun a b => solution_comparator names a b != Ordering.gt) with
  | nil => simp [dedup_by]
  | cons x xs =>
    rw [hms] at hchain
    exact dedup_go_chain cmp_key hlaw (sol_key names) xs x hchain

/-- Counterexample to C5 as stated: two solutions with distinct ids `(0,0)`
and `(1,1)` but the same name `"x"` have different §3 identity tuples, yet the
program's name-based dedup removes one of them; dedup by the identity tuple
(as the claim says) would keep both. -/
theorem deterministic_output_not_ident_dedup :
    deterministic_output [[120], [120]]
      [⟨0, 0, Orientation.Normal, 0, 0, 0, 0, 0, []⟩,
       ⟨1, 1, Orientation.Normal, 0, 0, 0, 0, 0, []⟩] ≠
    spec_deterministic_output [[120], [120]]
      [⟨0, 0, Orientation.Normal, 0, 0, 0, 0, 0, []⟩,
       ⟨1, 1, Orientation.Normal, 0, 0, 0, 0, 0, []⟩] := by
  have hms : ([⟨0, 0, Orientation.Normal, 0, 0, 0, 0, 0, []⟩,
       ⟨1, 1, Orientation.Normal, 0, 0, 0, 0, 0, []⟩] : List Solution).mergeSort
      (fun a b => solution_comparator [[120], [120]] a b != Ordering.gt) =
      [⟨0, 0, Orientation.Normal, 0, 0, 0, 0, 0, []⟩,
       ⟨1, 1, Orientation.Normal, 0, 0, 0, 0, 0, []⟩] := by
    apply List.mergeSort_of_sorted
    refine List.Pairwise.cons ?_ (List.Pairwise.cons ?_ List.Pairwise.nil)
    · intro a ha
      rw [List.mem_singleton] at ha
      subst ha
      decide
    · intro a ha
      exact absurd ha (List.not_mem_nil a)
  unfold deterministic_output spec_deterministic_output
  rw [hms]
  decide

end Overlaps
